import Mathlib
/-!
Verification development for the paytoy transaction engine.

The definitions below are a shallow embedding of the Rust sources:
records.rs (record model), client_account.rs (per-client state machine),
account_manager.rs (single-threaded manager loop), transactions_reader.rs
(reorder stage of the parallel reader) and main.rs (exit-code behaviour).

Modelling conventions:
- `rust_decimal::Decimal` amounts are modelled as exact rationals; the
  operations used on balances are addition, subtraction and comparison,
  which Decimal performs exactly on in-range values.
- `u16` client ids and `u32` transaction ids are modelled as naturals: no
  arithmetic is ever performed on them, they are only compared for equality.
- `hashbrown::HashMap` maps are modelled as functions into `Option` for the
  account databases, and as association lists for the reorder stage's
  holding map (where removal and finiteness matter).
- a Rust method on `&mut self` returning `anyhow::Result<()>` is modelled
  as a function from the receiver to a pair of the optional error and the
  updated receiver, so that the receiver after a failed call is visible.
-/
namespace PayToy

/-- Transaction id, u32 in records.rs. -/
abbrev TransactionId := Nat

/-- Client id, u16 in records.rs. -/
abbrev ClientId := Nat

/-- Exact amount, modelling rust_decimal Decimal on the balance paths. -/
abbrev Amount := ℚ

/-- DisputeProgress from client_account.rs. -/
inductive DisputeProgress where
  | Idle
  | InProgress
  | Done
  deriving DecidableEq, Repr

/-- TransactionHist from client_account.rs: a ledger entry. -/
structure TransactionHist where
  state : DisputeProgress
  amount : Amount
  deriving DecidableEq, Repr

/-- TransactionHist.new: a fresh ledger entry starts Idle. -/
def TransactionHist.new (amount : Amount) : TransactionHist :=
  { state := DisputeProgress.Idle, amount := amount }

/-- The distinct error cases produced by the state machine and the manager,
one constructor per distinct anyhow message in client_account.rs and
account_manager.rs. -/
inductive TxError where
  | transactionAlreadyExists
  | insufficientFunds
  | noDepositTransaction
  | disputeInProgressOrDone
  | notEnoughFundsToDispute
  | transactionDoesNotExist
  | cannotResolveNotDisputed
  | notEnoughHeldToResolve
  | notEnoughHeldToChargeback
  | missingAmount
  deriving DecidableEq, Repr

/-- ClientAccount from client_account.rs.  The transaction history HashMap
is modelled as a function to Option. -/
structure ClientAccount where
  id : ClientId
  available : Amount
  held : Amount
  locked : Bool
  transaction_history : TransactionId → Option TransactionHist

/-- ClientAccount.new: zero balances, unlocked, empty history. -/
def ClientAccount.new (id : ClientId) : ClientAccount :=
  { id := id
    available := 0
    held := 0
    locked := false
    transaction_history := fun _ => none }

/-- ClientAccount.total(): available + held, derived and never stored. -/
def ClientAccount.total (a : ClientAccount) : Amount :=
  a.available + a.held

/-- HashMap.insert on the history map. -/
def insertHist (h : TransactionId → Option TransactionHist)
    (tx : TransactionId) (e : TransactionHist) :
    TransactionId → Option TransactionHist :=
  fun t => if t = tx then some e else h t

/-- ClientAccount.deposit from client_account.rs lines 96 to 110: error when
the transaction id already exists, otherwise add to available and insert an
Idle ledger entry. -/
def ClientAccount.deposit (a : ClientAccount) (transaction_id : TransactionId)
    (amount : Amount) : Option TxError × ClientAccount :=
  if (a.transaction_history transaction_id).isSome then
    (some TxError.transactionAlreadyExists, a)
  else
    (none,
      { a with
        available := a.available + amount
        transaction_history :=
          insertHist a.transaction_history transaction_id
            (TransactionHist.new amount) })

/-- ClientAccount.withdraw from client_account.rs lines 114 to 137: error when
the transaction id already exists or when the amount exceeds available;
otherwise subtract from available.  No ledger entry is created: the insert is
commented out in the source because withdrawals are not disputable. -/
def ClientAccount.withdraw (a : ClientAccount) (transaction_id : TransactionId)
    (amount : Amount) : Option TxError × ClientAccount :=
  if (a.transaction_history transaction_id).isSome then
    (some TxError.transactionAlreadyExists, a)
  else if amount > a.available then
    (some TxError.insufficientFunds, a)
  else
    (none, { a with available := a.available - amount })

/-- ClientAccount.dispute from client_account.rs lines 143 to 162: error when
the id is not in the history, when the entry is not Idle, or when the entry
amount exceeds available; otherwise move the amount from available to held
and mark the entry InProgress. -/
def ClientAccount.dispute (a : ClientAccount) (transaction_id : TransactionId) :
    Option TxError × ClientAccount :=
  match a.transaction_history transaction_id with
  | none => (some TxError.noDepositTransaction, a)
  | some t =>
    if t.state ≠ DisputeProgress.Idle then
      (some TxError.disputeInProgressOrDone, a)
    else if t.amount > a.available then
      (some TxError.notEnoughFundsToDispute, a)
    else
      (none,
        { a with
          available := a.available - t.amount
          held := a.held + t.amount
          transaction_history :=
            insertHist a.transaction_history transaction_id
              { state := DisputeProgress.InProgress, amount := t.amount } })

/-- ClientAccount.resolve from client_account.rs lines 168 to 191: error when
the id is not in the history, when the entry is not InProgress, or when the
entry amount exceeds held; otherwise move the amount from held back to
available and mark the entry Done. -/
def ClientAccount.resolve (a : ClientAccount) (transaction_id : TransactionId) :
    Option TxError × ClientAccount :=
  match a.transaction_history transaction_id with
  | none => (some TxError.transactionDoesNotExist, a)
  | some t =>
    if t.state ≠ DisputeProgress.InProgress then
      (some TxError.cannotResolveNotDisputed, a)
    else if t.amount > a.held then
      (some TxError.notEnoughHeldToResolve, a)
    else
      (none,
        { a with
          available := a.available + t.amount
          held := a.held - t.amount
          transaction_history :=
            insertHist a.transaction_history transaction_id
              { state := DisputeProgress.Done, amount := t.amount } })

/-- ClientAccount.chargeback from client_account.rs lines 198 to 221: error
when the id is not in the history, when the entry is not InProgress, or when
the entry amount exceeds held; otherwise subtract the amount from held, lock
the account and mark the entry Done.  available is not touched. -/
def ClientAccount.chargeback (a : ClientAccount) (transaction_id : TransactionId) :
    Option TxError × ClientAccount :=
  match a.transaction_history transaction_id with
  | none => (some TxError.transactionDoesNotExist, a)
  | some t =>
    if t.state ≠ DisputeProgress.InProgress then
      (some TxError.cannotResolveNotDisputed, a)
    else if t.amount > a.held then
      (some TxError.notEnoughHeldToChargeback, a)
    else
      (none,
        { a with
          held := a.held - t.amount
          locked := true
          transaction_history :=
            insertHist a.transaction_history transaction_id
              { state := DisputeProgress.Done, amount := t.amount } })

/-- TransactionType from records.rs. -/
inductive TransactionType where
  | Deposit
  | Withdrawal
  | Dispute
  | Resolve
  | ChargeBack
  deriving DecidableEq, Repr

/-- TransactionRecord from records.rs.  The amount field is carried as the
exact amount the rest of the code type-checks against (the Decimal expected
by account_manager.rs line 58 and asserted by the reader test at
transactions_reader.rs line 240); the f32 declared at records.rs line 44 is
the subject of claim C1 and is modelled separately by f32RoundAtScale. -/
structure TransactionRecord where
  tr_type : TransactionType
  client : ClientId
  tx : TransactionId
  amount : Option Amount
  deriving DecidableEq, Repr

/-- STAccountManager.get_or_create_account from account_manager.rs lines 88
to 97, split into the pure lookup: the returned account is the stored one or
a fresh one. -/
def getOrCreateAccount (accounts : ClientId → Option ClientAccount)
    (c : ClientId) : ClientAccount :=
  match accounts c with
  | some a => a
  | none => ClientAccount.new c

/-- The dispatch match of execute_transactions, account_manager.rs lines 56
to 68: deposits and withdrawals need an amount, the other types forward the
transaction id. -/
def applyRecord (a : ClientAccount) (r : TransactionRecord) :
    Option TxError × ClientAccount :=
  match r.tr_type with
  | TransactionType.Deposit =>
    match r.amount with
    | some amount => a.deposit r.tx amount
    | none => (some TxError.missingAmount, a)
  | TransactionType.Withdrawal =>
    match r.amount with
    | some amount => a.withdraw r.tx amount
    | none => (some TxError.missingAmount, a)
  | TransactionType.Dispute => a.dispute r.tx
  | TransactionType.Resolve => a.resolve r.tx
  | TransactionType.ChargeBack => a.chargeback r.tx

/-- One iteration of the STAccountManager.execute_transactions loop,
account_manager.rs lines 43 to 73: get or create the account (which inserts
it into the map), skip the record when the account is locked, otherwise
dispatch into the state machine; errors are only logged. -/
def processRecord (accounts : ClientId → Option ClientAccount)
    (r : TransactionRecord) : ClientId → Option ClientAccount :=
  let client := getOrCreateAccount accounts r.client
  if client.locked then
    fun c => if c = r.client then some client else accounts c
  else
    let result := applyRecord client r
    fun c => if c = r.client then some result.2 else accounts c

/-- STAccountManager.execute_transactions, account_manager.rs lines 42 to
78: fold the per-record step over the stream. -/
def execute_transactions (accounts : ClientId → Option ClientAccount)
    (records : List TransactionRecord) : ClientId → Option ClientAccount :=
  records.foldl processRecord accounts

/-- One call into the state machine, used to phrase properties over
arbitrary operation sequences on a single account. -/
inductive AccountOp where
  | deposit (tx : TransactionId) (amount : Amount)
  | withdraw (tx : TransactionId) (amount : Amount)
  | dispute (tx : TransactionId)
  | resolve (tx : TransactionId)
  | chargeback (tx : TransactionId)
  deriving DecidableEq, Repr

/-- Dispatch of a single AccountOp into the state machine. -/
def applyOp (a : ClientAccount) : AccountOp → Option TxError × ClientAccount
  | AccountOp.deposit tx amount => a.deposit tx amount
  | AccountOp.withdraw tx amount => a.withdraw tx amount
  | AccountOp.dispute tx => a.dispute tx
  | AccountOp.resolve tx => a.resolve tx
  | AccountOp.chargeback tx => a.chargeback tx

/-- Run a sequence of operations on an account, keeping the account produced
after each call whether or not it errored, as the manager loop does. -/
def runOps (a : ClientAccount) (ops : List AccountOp) : ClientAccount :=
  ops.foldl (fun s op => (applyOp s op).2) a

/-- An operation whose deposit amount is nonnegative; operations other than
deposits are unconstrained. -/
def depositNonneg : AccountOp → Prop
  | AccountOp.deposit _ amount => 0 ≤ amount
  | _ => True

instance : DecidablePred depositNonneg := by
  intro op
  cases op <;> simp only [depositNonneg] <;> infer_instance

/-- The account with its locked flag replaced. -/
def setLocked (a : ClientAccount) (b : Bool) : ClientAccount :=
  { a with locked := b }

/-- A parsed block as received by the reorder stage: the block id assigned by
the reader and the records parsed from the block. -/
abbrev ParsedBlock := Nat × List TransactionRecord

/-- Lookup in the reorder stage's holding map, modelled as an association
list (HashMap.get on the queue in start_reorder). -/
def lookupQ : List ParsedBlock → Nat → Option (List TransactionRecord)
  | [], _ => none
  | (k, v) :: rest, k' => if k = k' then some v else lookupQ rest k'

/-- Removal from the holding map (HashMap.remove in start_reorder). -/
def eraseQ : List ParsedBlock → Nat → List ParsedBlock
  | [], _ => []
  | (k, v) :: rest, k' => if k = k' then rest else (k, v) :: eraseQ rest k'

theorem eraseQ_length_lt {q : List ParsedBlock} {k : Nat} {v : List TransactionRecord}
    (h : lookupQ q k = some v) : (eraseQ q k).length < q.length := by
  induction q with
  | nil => simp [lookupQ] at h
  | cons p rest ih =>
    obtain ⟨a, w⟩ := p
    simp only [lookupQ] at h
    simp only [eraseQ]
    split
    · simp
    · next hne =>
      rw [if_neg hne] at h
      simpa using Nat.succ_lt_succ (ih h)

/-- The backlog-clearing loop inside start_reorder, transactions_reader.rs
lines 182 to 189: starting at the block id waited for, repeatedly remove and
emit the held block with that id and advance, stopping at the first id not
present in the holding map.  Returns the new id waited for, the remaining
holding map and the emitted records. -/
def drain (w : Nat) (q : List ParsedBlock) :
    Nat × List ParsedBlock × List TransactionRecord :=
  match h : lookupQ q w with
  | some rs1 =>
    have : (eraseQ q w).length < q.length := eraseQ_length_lt h
    let r := drain (w + 1) (eraseQ q w)
    (r.1, r.2.1, rs1 ++ r.2.2)
  | none => (w, q, [])
termination_by q.length

/-- One iteration of the reorder loop, transactions_reader.rs lines 173 to
193: a block equal to the id waited for is emitted and the backlog drained;
a later block is held; an earlier block is dropped. -/
def reorderStep (st : Nat × List ParsedBlock × List TransactionRecord)
    (blk : ParsedBlock) : Nat × List ParsedBlock × List TransactionRecord :=
  if blk.1 = st.1 then
    let r := drain (st.1 + 1) st.2.1
    (r.1, r.2.1, st.2.2 ++ blk.2 ++ r.2.2)
  else if st.1 < blk.1 then
    (st.1, (blk.1, blk.2) :: st.2.1, st.2.2)
  else
    st

/-- MTReader.start_reorder, transactions_reader.rs lines 165 to 195: fold
the reorder step over the received blocks starting from id 1 with an empty
holding map; the result is the full sequence of emitted records. -/
def start_reorder (blocks : List ParsedBlock) : List TransactionRecord :=
  (blocks.foldl reorderStep (1, [], [])).2.2

/-- The in-order concatenation of the record vectors of blocks 1 to m. -/
def expectedOut (rs : Nat → List TransactionRecord) (m : Nat) :
    List TransactionRecord :=
  ((List.range m).map (fun i => rs (i + 1))).flatten

/-- Modelled from the spec and records.rs line 44: the amount field of a
TransactionRecord is declared as Option of f32, an IEEE-754 binary32.  For a
value in the binade from 2 ^ (-4) to 2 ^ (-3) (which contains 0.1), binary32
values are spaced 2 ^ (-27) apart, so parsing rounds to the nearest multiple
of 2 ^ (-27).  This function is that correct rounding at scale s. -/
def f32RoundAtScale (q : ℚ) (s : Nat) : ℚ :=
  ((round (q * 2 ^ s) : ℤ) : ℚ) / 2 ^ s

/-- The exit code of main, main.rs lines 41 to 72: when the argument count
is not exactly two the process calls exit(0); when PayToyApp.run returns an
error (such as failing to open the input file) the process logs it and calls
exit(0); on success main returns normally, which is exit code 0. -/
def mainExitCode (argc : Nat) (runResult : Except String Unit) : Nat :=
  if argc ≠ 2 then 0
  else
    match runResult with
    | Except.error _ => 0
    | Except.ok _ => 0

/-- The held-funds invariant: held is nonnegative and every ledger entry
carries a nonnegative amount. -/
def HeldInv (a : ClientAccount) : Prop :=
  0 ≤ a.held ∧ ∀ tx e, a.transaction_history tx = some e → 0 ≤ e.amount

/-- The loop invariant of the reorder stage, relative to the record vectors
rs and the list D of block ids received so far: the id waited for is
positive, every smaller positive id was already received, the id waited for
was not, the emitted output is the in-order concatenation of all blocks
below it, and the holding map holds exactly the received blocks beyond it. -/
def ReorderInv (rs : Nat → List TransactionRecord) (D : List Nat)
    (st : Nat × List ParsedBlock × List TransactionRecord) : Prop :=
  1 ≤ st.1 ∧
  (∀ k, 1 ≤ k → k < st.1 → k ∈ D) ∧
  st.1 ∉ D ∧
  st.2.2 = expectedOut rs (st.1 - 1) ∧
  (st.2.1.map Prod.fst).Nodup ∧
  (∀ k, lookupQ st.2.1 k =
    if decide (k ∈ D ∧ st.1 < k) then some (rs k) else none)

/-- An account on which every operation with transaction id 1 errors: the id
is in the ledger with a Done entry whose amount exceeds both balances. -/
def doneSample : ClientAccount :=
  { id := 1
    available := 0
    held := 0
    locked := true
    transaction_history := fun t =>
      if t = 1 then some { state := DisputeProgress.Done, amount := 100 } else none }

/-- A locked account with funds and an empty ledger. -/
def lockedSample : ClientAccount :=
  { id := 7
    available := 3
    held := 0
    locked := true
    transaction_history := fun _ => none }

/-- An account holding a single disputed deposit of 10: the result of
deposit 10 with id 1 and then dispute of id 1 on a fresh account. -/
def disputedSample : ClientAccount :=
  (((ClientAccount.new 1).deposit 1 10).2.dispute 1).2

/-- The S4 account: deposit 10 with id 1 then withdraw 5, leaving available
5 with an Idle ledger entry of 10. -/
def s4Sample : ClientAccount :=
  ((((ClientAccount.new 1).deposit 1 10).2).withdraw 2 5).2

/-- A one-record block content used by the reorder witness. -/
def blockRecord (i : Nat) : List TransactionRecord :=
  [{ tr_type := TransactionType.Deposit, client := 1, tx := i, amount := some 1 }]

/-! Helper lemmas. -/

theorem eraseQ_sublist (q : List ParsedBlock) (k : Nat) : (eraseQ q k).Sublist q := by
  induction q with
  | nil => simp [eraseQ]
  | cons p rest ih =>
    obtain ⟨a, v⟩ := p
    simp only [eraseQ]
    split
    · exact List.sublist_cons_self _ _
    · exact List.Sublist.cons₂ _ ih

theorem lookupQ_eq_none_of_not_mem {q : List ParsedBlock} {k : Nat}
    (h : k ∉ q.map Prod.fst) : lookupQ q k = none := by
  induction q with
  | nil => rfl
  | cons p rest ih =>
    obtain ⟨a, v⟩ := p
    simp only [List.map_cons, List.mem_cons, not_or] at h
    simp only [lookupQ]
    rw [if_neg (fun hak : a = k => h.1 hak.symm)]
    exact ih h.2

theorem mem_keys_of_lookupQ_isSome {q : List ParsedBlock} {k : Nat}
    (h : (lookupQ q k).isSome) : k ∈ q.map Prod.fst := by
  by_contra hmem
  rw [lookupQ_eq_none_of_not_mem hmem] at h
  simp at h

theorem lookupQ_isSome_of_mem_keys {q : List ParsedBlock} {k : Nat}
    (h : k ∈ q.map Prod.fst) : (lookupQ q k).isSome := by
  induction q with
  | nil => simp at h
  | cons p rest ih =>
    obtain ⟨a, v⟩ := p
    simp only [List.map_cons, List.mem_cons] at h
    simp only [lookupQ]
    by_cases hak : a = k
    · simp [hak]
    · rw [if_neg hak]
      exact ih (h.resolve_left (fun hk => hak hk.symm))

theorem lookupQ_eraseQ {q : List ParsedBlock} (hnd : (q.map Prod.fst).Nodup)
    (k k' : Nat) :
    lookupQ (eraseQ q k) k' = if k' = k then none else lookupQ q k' := by
  induction q with
  | nil => simp [eraseQ, lookupQ]
  | cons p rest ih =>
    obtain ⟨a, v⟩ := p
    simp only [List.map_cons, List.nodup_cons] at hnd
    by_cases hak : a = k
    · subst hak
      have he : eraseQ ((a, v) :: rest) a = rest := by simp [eraseQ]
      rw [he]
      by_cases hk' : k' = a
      · subst hk'
        rw [if_pos rfl]
        exact lookupQ_eq_none_of_not_mem hnd.1
      · rw [if_neg hk']
        simp only [lookupQ]
        rw [if_neg (fun h : a = k' => hk' h.symm)]
    · simp only [eraseQ, if_neg hak]
      simp only [lookupQ]
      by_cases hak' : a = k'
      · rw [if_pos hak', if_neg (fun h : k' = k => hak (hak'.trans h)), if_pos hak']
      · rw [if_neg hak', ih hnd.2]
        by_cases hk : k' = k
        · rw [if_pos hk, if_pos hk]
        · rw [if_neg hk, if_neg hk, if_neg hak']

theorem drain_of_none {w : Nat} {q : List ParsedBlock}
    (h : lookupQ q w = none) : drain w q = (w, q, []) := by
  rw [drain.eq_def]
  split
  · next heq => rw [h] at heq; cases heq
  · rfl

theorem drain_of_some {w : Nat} {q : List ParsedBlock} {rs1 : List TransactionRecord}
    (h : lookupQ q w = some rs1) :
    drain w q = ((drain (w + 1) (eraseQ q w)).1,
      (drain (w + 1) (eraseQ q w)).2.1,
      rs1 ++ (drain (w + 1) (eraseQ q w)).2.2) := by
  rw [drain.eq_def]
  split
  · next rs2 heq =>
    rw [h] at heq
    cases heq
    rfl
  · next heq => rw [h] at heq; cases heq

theorem bool_cond_merge (b : Bool) (P R S : Prop) [Decidable P] [Decidable R]
    [Decidable S] (h : P ∨ R ↔ S) :
    ((b && !decide P) && !decide R) = (b && !decide S) := by
  by_cases hP : P
  · have hS : S := h.mp (Or.inl hP)
    simp [hP, hS]
  · by_cases hR : R
    · have hS : S := h.mp (Or.inr hR)
      simp [hR, hS]
    · have hS : ¬S := fun hs => (h.mpr hs).elim hP hR
      simp [hP, hR, hS]

theorem drain_spec_stop (rs : Nat → List TransactionRecord) {q : List ParsedBlock} {w : Nat}
    {Q : Nat → Bool} (hnd : (q.map Prod.fst).Nodup)
    (hchar : ∀ k, lookupQ q k = if Q k then some (rs k) else none)
    (hw : lookupQ q w = none) :
    ∃ m,
      (drain w q).1 = w + m ∧
      (∀ j, j < m → Q (w + j) = true) ∧
      Q (w + m) = false ∧
      (drain w q).2.2 = ((List.range m).map (fun j => rs (w + j))).flatten ∧
      ((drain w q).2.1.map Prod.fst).Nodup ∧
      (∀ k, lookupQ (drain w q).2.1 k =
        if Q k && !decide (w ≤ k ∧ k < w + m) then some (rs k) else none) := by
  have hQw : Q w = false := by
    have hc := hchar w
    rw [hw] at hc
    by_contra hb
    rw [Bool.not_eq_false] at hb
    rw [hb] at hc
    simp at hc
  refine ⟨0, ?_, ?_, ?_, ?_, ?_, ?_⟩
  · rw [drain_of_none hw]
    simp
  · intro j hj
    omega
  · simpa using hQw
  · rw [drain_of_none hw]
    simp
  · rw [drain_of_none hw]
    exact hnd
  · intro k
    rw [drain_of_none hw]
    rw [decide_eq_false (show ¬(w ≤ k ∧ k < w + 0) by omega)]
    simp only [Bool.not_false, Bool.and_true]
    exact hchar k

theorem drain_spec (rs : Nat → List TransactionRecord) :
    ∀ (N : Nat) (q : List ParsedBlock) (w : Nat) (Q : Nat → Bool),
      q.length ≤ N →
      (q.map Prod.fst).Nodup →
      (∀ k, lookupQ q k = if Q k then some (rs k) else none) →
      ∃ m,
        (drain w q).1 = w + m ∧
        (∀ j, j < m → Q (w + j) = true) ∧
        Q (w + m) = false ∧
        (drain w q).2.2 = ((List.range m).map (fun j => rs (w + j))).flatten ∧
        ((drain w q).2.1.map Prod.fst).Nodup ∧
        (∀ k, lookupQ (drain w q).2.1 k =
          if Q k && !decide (w ≤ k ∧ k < w + m) then some (rs k) else none) := by
  intro N
  induction N with
  | zero =>
    intro q w Q hlen hnd hchar
    have hq : q = [] := List.eq_nil_of_length_eq_zero (Nat.le_zero.mp hlen)
    subst hq
    exact drain_spec_stop rs hnd hchar rfl
  | succ N ih =>
    intro q w Q hlen hnd hchar
    cases hw : lookupQ q w with
    | none => exact drain_spec_stop rs hnd hchar hw
    | some rs1 =>
      have hQw : Q w = true := by
        have hc := hchar w
        rw [hw] at hc
        by_contra hb
        rw [Bool.not_eq_true] at hb
        rw [hb] at hc
        simp at hc
      have hrs1 : rs1 = rs w := by
        have hc := hchar w
        rw [hw, hQw] at hc
        simpa using hc
      have hlen' : (eraseQ q w).length ≤ N :=
        Nat.lt_succ_iff.mp (Nat.lt_of_lt_of_le (eraseQ_length_lt hw) hlen)
      have hnd' : ((eraseQ q w).map Prod.fst).Nodup :=
        hnd.sublist (List.Sublist.map Prod.fst (eraseQ_sublist q w))
      have hchar' : ∀ k, lookupQ (eraseQ q w) k =
          if Q k && !decide (k = w) then some (rs k) else none := by
        intro k
        rw [lookupQ_eraseQ hnd]
        by_cases hk : k = w
        · simp [hk]
        · rw [if_neg hk, hchar k, decide_eq_false hk]
          simp
      obtain ⟨m', ih1, ih2, ih3, ih4, ih5, ih6⟩ :=
        ih (eraseQ q w) (w + 1) (fun k => Q k && !decide (k = w)) hlen' hnd' hchar'
      refine ⟨m' + 1, ?_, ?_, ?_, ?_, ?_, ?_⟩
      · rw [drain_of_some hw, ih1]
        omega
      · intro j hj
        cases j with
        | zero => simpa using hQw
        | succ j' =>
          have hj' := ih2 j' (by omega)
          rw [show w + 1 + j' = w + (j' + 1) by omega] at hj'
          rw [Bool.and_eq_true] at hj'
          exact hj'.1
      · have h3 := ih3
        rw [show w + 1 + m' = w + (m' + 1) by omega] at h3
        rw [decide_eq_false (show ¬(w + (m' + 1) = w) by omega)] at h3
        simpa using h3
      · rw [drain_of_some hw, hrs1, ih4]
        rw [List.range_succ_eq_map]
        simp only [List.map_cons, List.map_map, List.flatten_cons, Nat.add_zero]
        congr 1
        apply congrArg
        apply List.map_congr_left
        intro j hj
        simp only [Function.comp_apply]
        congr 1
        omega
      · rw [drain_of_some hw]
        exact ih5
      · intro k
        rw [drain_of_some hw]
        rw [ih6 k]
        rw [bool_cond_merge (Q k) (k = w) (w + 1 ≤ k ∧ k < w + 1 + m')
          (w ≤ k ∧ k < w + (m' + 1)) (by omega)]

theorem expectedOut_succ (rs : Nat → List TransactionRecord) (n : Nat) :
    expectedOut rs (n + 1) = expectedOut rs n ++ rs (n + 1) := by
  simp [expectedOut, List.range_succ]

theorem expectedOut_add (rs : Nat → List TransactionRecord) :
    ∀ (m a : Nat),
      expectedOut rs a ++ ((List.range m).map (fun j => rs (a + 1 + j))).flatten
        = expectedOut rs (a + m) := by
  intro m
  induction m with
  | zero => intro a; simp
  | succ m ih =>
    intro a
    rw [List.range_succ]
    simp only [List.map_append, List.map_cons, List.map_nil, List.flatten_append,
      List.flatten_cons, List.flatten_nil, List.append_nil]
    rw [← List.append_assoc, ih a]
    rw [show a + (m + 1) = (a + m) + 1 by omega, expectedOut_succ]
    congr 2
    omega

theorem heldInv_new (c : ClientId) : HeldInv (ClientAccount.new c) := by
  constructor
  · simp [ClientAccount.new]
  · intro tx e h
    simp [ClientAccount.new] at h

theorem heldInv_insertHist {a : ClientAccount} {e0 : TransactionHist}
    (hi : ∀ tx e, a.transaction_history tx = some e → 0 ≤ e.amount)
    (he : 0 ≤ e0.amount) (tx0 : TransactionId) :
    ∀ tx e, insertHist a.transaction_history tx0 e0 tx = some e → 0 ≤ e.amount := by
  intro tx e h
  simp only [insertHist] at h
  by_cases ht : tx = tx0
  · rw [if_pos ht] at h
    obtain rfl := Option.some.inj h
    exact he
  · rw [if_neg ht] at h
    exact hi tx e h

theorem heldInv_applyOp {a : ClientAccount} {op : AccountOp}
    (hi : HeldInv a) (hop : depositNonneg op) : HeldInv (applyOp a op).2 := by
  obtain ⟨h1, h2⟩ := hi
  cases op with
  | deposit tx amount =>
    simp only [depositNonneg] at hop
    by_cases hc : (a.transaction_history tx).isSome
    · simpa [applyOp, ClientAccount.deposit, hc] using ⟨h1, h2⟩
    · refine ⟨by simpa [applyOp, ClientAccount.deposit, hc] using h1, ?_⟩
      intro tx' e' h'
      simp only [applyOp, ClientAccount.deposit, hc, Bool.false_eq_true,
        if_false] at h'
      exact heldInv_insertHist h2 (by simpa [TransactionHist.new] using hop) tx tx' e' h'
  | withdraw tx amount =>
    by_cases hc : (a.transaction_history tx).isSome
    · simpa [applyOp, ClientAccount.withdraw, hc] using ⟨h1, h2⟩
    · by_cases hf : amount > a.available
      · simpa [applyOp, ClientAccount.withdraw, hc, hf] using ⟨h1, h2⟩
      · simpa [applyOp, ClientAccount.withdraw, hc, hf] using ⟨h1, h2⟩
  | dispute tx =>
    cases hh : a.transaction_history tx with
    | none => simpa [applyOp, ClientAccount.dispute, hh] using ⟨h1, h2⟩
    | some t =>
      by_cases hs : t.state = DisputeProgress.Idle
      · by_cases hf : t.amount > a.available
        · simpa [applyOp, ClientAccount.dispute, hh, hs, hf] using ⟨h1, h2⟩
        · have hta : 0 ≤ t.amount := h2 tx t hh
          refine ⟨?_, ?_⟩
          · simp only [applyOp, ClientAccount.dispute, hh, hs]
            simpa [hf] using add_nonneg h1 hta
          · intro tx' e' h'
            simp [applyOp, ClientAccount.dispute, hh, hs, hf] at h'
            exact @heldInv_insertHist a
              { state := DisputeProgress.InProgress, amount := t.amount }
              h2 hta tx tx' e' h'
      · simpa [applyOp, ClientAccount.dispute, hh, hs] using ⟨h1, h2⟩
  | resolve tx =>
    cases hh : a.transaction_history tx with
    | none => simpa [applyOp, ClientAccount.resolve, hh] using ⟨h1, h2⟩
    | some t =>
      by_cases hs : t.state = DisputeProgress.InProgress
      · by_cases hf : t.amount > a.held
        · simpa [applyOp, ClientAccount.resolve, hh, hs, hf] using ⟨h1, h2⟩
        · have hta : 0 ≤ t.amount := h2 tx t hh
          refine ⟨?_, ?_⟩
          · simp only [applyOp, ClientAccount.resolve, hh, hs]
            simpa [hf] using sub_nonneg.mpr (not_lt.mp hf)
          · intro tx' e' h'
            simp [applyOp, ClientAccount.resolve, hh, hs, hf] at h'
            exact @heldInv_insertHist a
              { state := DisputeProgress.Done, amount := t.amount }
              h2 hta tx tx' e' h'
      · simpa [applyOp, ClientAccount.resolve, hh, hs] using ⟨h1, h2⟩
  | chargeback tx =>
    cases hh : a.transaction_history tx with
    | none => simpa [applyOp, ClientAccount.chargeback, hh] using ⟨h1, h2⟩
    | some t =>
      by_cases hs : t.state = DisputeProgress.InProgress
      · by_cases hf : t.amount > a.held
        · simpa [applyOp, ClientAccount.chargeback, hh, hs, hf] using ⟨h1, h2⟩
        · have hta : 0 ≤ t.amount := h2 tx t hh
          refine ⟨?_, ?_⟩
          · simp only [applyOp, ClientAccount.chargeback, hh, hs]
            simpa [hf] using sub_nonneg.mpr (not_lt.mp hf)
          · intro tx' e' h'
            simp [applyOp, ClientAccount.chargeback, hh, hs, hf] at h'
            exact @heldInv_insertHist a
              { state := DisputeProgress.Done, amount := t.amount }
              h2 hta tx tx' e' h'
      · simpa [applyOp, ClientAccount.chargeback, hh, hs] using ⟨h1, h2⟩

theorem heldInv_runOps {a : ClientAccount} {ops : List AccountOp}
    (hi : HeldInv a) (hops : ∀ op ∈ ops, depositNonneg op) :
    HeldInv (runOps a ops) := by
  induction ops generalizing a with
  | nil => exact hi
  | cons op rest ih =>
    exact ih (heldInv_applyOp hi (hops op (List.mem_cons_self op rest)))
      (fun o ho => hops o (List.mem_cons_of_mem op ho))

theorem reorderStep_inv (rs : Nat → List TransactionRecord) (D : List Nat)
    (st : Nat × List ParsedBlock × List TransactionRecord) (i : Nat)
    (hInv : ReorderInv rs D st) (hfresh : i ∉ D) (hpos : 1 ≤ i) :
    ReorderInv rs (i :: D) (reorderStep st (i, rs i)) := by
  obtain ⟨w, q, out⟩ := st
  obtain ⟨h1, h2, h3, h4, h5, h6⟩ := hInv
  simp only at h1 h2 h3 h4 h5 h6
  rcases Nat.lt_trichotomy i w with hlt | heq | hgt
  · exact absurd (h2 i hpos hlt) hfresh
  · subst heq
    obtain ⟨m, d1, d2, d3, d4, d5, d6⟩ :=
      drain_spec rs q.length q (i + 1) (fun k => decide (k ∈ D ∧ i < k))
        le_rfl h5 h6
    have hstep : reorderStep (i, q, out) (i, rs i)
        = ((drain (i + 1) q).1, (drain (i + 1) q).2.1,
           out ++ rs i ++ (drain (i + 1) q).2.2) := by
      simp [reorderStep]
    rw [hstep]
    have hnotD : i + 1 + m ∉ D := by
      intro hmem
      have hd3 := d3
      simp only [decide_eq_false_iff_not] at hd3
      exact hd3 ⟨hmem, by omega⟩
    refine ⟨?_, ?_, ?_, ?_, ?_, ?_⟩
    · simp only [d1]
      omega
    · intro k hk1 hklt
      simp only [d1] at hklt
      rcases Nat.lt_trichotomy k i with hkw | hkw | hkw
      · exact List.mem_cons_of_mem _ (h2 k hk1 hkw)
      · exact hkw ▸ List.mem_cons_self _ _
      · have hj := d2 (k - (i + 1)) (by omega)
        rw [show i + 1 + (k - (i + 1)) = k by omega] at hj
        simp only [decide_eq_true_eq] at hj
        exact List.mem_cons_of_mem _ hj.1
    · simp only [d1]
      intro hmem
      rcases List.mem_cons.mp hmem with hmem | hmem
      · omega
      · exact hnotD hmem
    · simp only [d1, d4]
      rw [show i + 1 + m - 1 = i + m by omega]
      rw [h4]
      have hout : expectedOut rs (i - 1) ++ rs i = expectedOut rs i := by
        have hs := expectedOut_succ rs (i - 1)
        rw [show i - 1 + 1 = i by omega] at hs
        exact hs.symm
      rw [hout]
      exact expectedOut_add rs m i
    · exact d5
    · intro k
      rw [d6 k]
      have hcond : (decide (k ∈ D ∧ i < k) && !decide (i + 1 ≤ k ∧ k < i + 1 + m))
          = decide (k ∈ i :: D ∧ i + 1 + m < k) := by
        rw [← decide_not, ← Bool.decide_and]
        apply decide_eq_decide.mpr
        constructor
        · rintro ⟨⟨hD, hik⟩, hnr⟩
          refine ⟨List.mem_cons_of_mem _ hD, ?_⟩
          rcases Nat.lt_trichotomy k (i + 1 + m) with hc | hc | hc
          · exact absurd ⟨by omega, hc⟩ hnr
          · exact absurd (hc ▸ hD) hnotD
          · exact hc
        · rintro ⟨hmem, hgt⟩
          rcases List.mem_cons.mp hmem with hmem | hmem
          · omega
          · exact ⟨⟨hmem, by omega⟩, by omega⟩
      rw [hcond]
      simp only [d1]
  · have hstep : reorderStep (w, q, out) (i, rs i)
        = (w, (i, rs i) :: q, out) := by
      simp only [reorderStep]
      rw [if_neg (show ¬ i = w by omega), if_pos (show w < i by omega)]
    rw [hstep]
    have hlk : lookupQ q i = none := by
      have h6i := h6 i
      rw [decide_eq_false (show ¬(i ∈ D ∧ w < i) from fun hc => hfresh hc.1)] at h6i
      simpa using h6i
    have hiq : i ∉ q.map Prod.fst := by
      intro hmem
      have := lookupQ_isSome_of_mem_keys hmem
      rw [hlk] at this
      simp at this
    refine ⟨h1, ?_, ?_, h4, ?_, ?_⟩
    · intro k hk1 hklt
      exact List.mem_cons_of_mem _ (h2 k hk1 hklt)
    · intro hmem
      rcases List.mem_cons.mp hmem with hmem | hmem
      · omega
      · exact h3 hmem
    · simp only [List.map_cons, List.nodup_cons]
      exact ⟨hiq, h5⟩
    · intro k
      simp only [lookupQ]
      by_cases hik : i = k
      · subst hik
        rw [if_pos rfl]
        rw [decide_eq_true (show i ∈ i :: D ∧ w < i from ⟨List.mem_cons_self _ _, hgt⟩)]
        rfl
      · rw [if_neg hik, h6 k]
        have : decide (k ∈ D ∧ w < k) = decide (k ∈ i :: D ∧ w < k) := by
          apply decide_eq_decide.mpr
          constructor
          · rintro ⟨hD, hk⟩
            exact ⟨List.mem_cons_of_mem _ hD, hk⟩
          · rintro ⟨hmem, hk⟩
            rcases List.mem_cons.mp hmem with hmem | hmem
            · exact absurd hmem.symm hik
            · exact ⟨hmem, hk⟩
        rw [this]

theorem foldl_reorder_inv (rs : Nat → List TransactionRecord) :
    ∀ (ts : List ParsedBlock) (D : List Nat)
      (st : Nat × List ParsedBlock × List TransactionRecord),
      ReorderInv rs D st →
      ((ts.map Prod.fst).Nodup) →
      (∀ p ∈ ts, 1 ≤ p.1 ∧ p.2 = rs p.1 ∧ p.1 ∉ D) →
      ReorderInv rs ((ts.map Prod.fst).reverse ++ D) (ts.foldl reorderStep st) := by
  intro ts
  induction ts with
  | nil =>
    intro D st h _ _
    simpa using h
  | cons p ts ih =>
    intro D st hInv hnd hfacts
    obtain ⟨i, v⟩ := p
    obtain ⟨hp1, hp2, hp3⟩ := hfacts (i, v) (List.mem_cons_self _ _)
    simp only at hp1 hp2 hp3
    subst hp2
    simp only [List.map_cons, List.nodup_cons] at hnd
    have hstep := reorderStep_inv rs D st i hInv hp3 hp1
    have hres := ih (i :: D) (reorderStep st (i, rs i)) hstep hnd.2 ?_
    · simp only [List.foldl_cons, List.map_cons, List.reverse_cons]
      rw [List.append_assoc]
      simpa using hres
    · intro p hp
      obtain ⟨g1, g2, g3⟩ := hfacts p (List.mem_cons_of_mem _ hp)
      refine ⟨g1, g2, ?_⟩
      intro hmem
      rcases List.mem_cons.mp hmem with hmem | hmem
      · exact hnd.1 (hmem ▸ List.mem_map_of_mem Prod.fst hp)
      · exact g3 hmem

/-! Claim theorems and witnesses. -/

/-- C1: the record amount field of records.rs is declared Option of f32, so
a deposit of the perfectly legal four-digit decimal amount 0.1 is stored as
the binary32 rounding of 0.1, which is strictly larger than 0.1: a
floating-point approximation is observable on the amount before it ever
reaches a balance, contradicting the claim that no balance path passes
through floating point. -/
theorem c1_amount_passes_through_f32 :
    (1 : ℚ) / 10 < f32RoundAtScale (1 / 10) 27 := by
  norm_num [f32RoundAtScale, round_eq]

/-- Counterexample to C2 as stated: a deposit of the negative amount -5
followed by a dispute of it drives held to -5, because the dispute guard
compares the entry amount against available with a strict inequality that a
negative amount passes. -/
theorem c2_counterexample :
    (runOps (ClientAccount.new 1)
      [AccountOp.deposit 1 (-5), AccountOp.dispute 1]).held < 0 := by
  norm_num [runOps, applyOp, ClientAccount.new, ClientAccount.deposit,
    ClientAccount.dispute, insertHist, TransactionHist.new]

/-- C2 amended: held stays nonnegative after every operation of any sequence
applied from the initial state, provided every deposit in the sequence
carries a nonnegative amount (the counterexample shows a negative deposit
breaks it). -/
theorem c2_held_nonneg (c : ClientId) (ops pre suf : List AccountOp)
    (hsplit : pre ++ suf = ops)
    (hnn : ∀ op ∈ ops, depositNonneg op) :
    0 ≤ (runOps (ClientAccount.new c) pre).held := by
  refine (heldInv_runOps (heldInv_new c) ?_).1
  intro op hop
  exact hnn op (hsplit ▸ List.mem_append_left suf hop)

/-- Witness for C2 amended: a deposit of 10 then a dispute of it keeps held
nonnegative. -/
theorem c2_held_nonneg_witness :
    0 ≤ (runOps (ClientAccount.new 1)
      [AccountOp.deposit 1 10, AccountOp.dispute 1]).held :=
  c2_held_nonneg 1 [AccountOp.deposit 1 10, AccountOp.dispute 1]
    [AccountOp.deposit 1 10, AccountOp.dispute 1] [] rfl
    (by
      intro op hop
      fin_cases hop <;> norm_num [depositNonneg])

/-- Counterexample to C3 as stated: after a successful withdrawal with
transaction id 2, a later deposit reusing id 2 is accepted (error-free) and
changes the account, because withdrawals never enter the ledger. -/
theorem c3_counterexample :
    ((((ClientAccount.new 1).deposit 1 10).2.withdraw 2 5).1 = none) ∧
    (((((ClientAccount.new 1).deposit 1 10).2.withdraw 2 5).2.deposit 2 7).1
      = none) ∧
    (((((ClientAccount.new 1).deposit 1 10).2.withdraw 2 5).2.deposit 2 7).2.available
      = 12) := by
  refine ⟨?_, ?_, ?_⟩ <;>
    norm_num [ClientAccount.new, ClientAccount.deposit, ClientAccount.withdraw,
      insertHist, TransactionHist.new]

/-- C3 amended: duplicate transaction ids are rejected only against ledgered
deposits: when the id is in the ledger, both deposit and withdraw reusing it
error and leave the account unchanged; a withdrawal never writes to the
ledger, so the id of a past withdrawal stays reusable. -/
theorem c3_duplicate_tx (a : ClientAccount) (t : TransactionId)
    (amount : Amount) (h : (a.transaction_history t).isSome) :
    a.deposit t amount = (some TxError.transactionAlreadyExists, a) ∧
    a.withdraw t amount = (some TxError.transactionAlreadyExists, a) ∧
    ∀ (b : ClientAccount) (t' : TransactionId) (amount' : Amount),
      (b.withdraw t' amount').2.transaction_history = b.transaction_history := by
  refine ⟨by simp [ClientAccount.deposit, h], by simp [ClientAccount.withdraw, h], ?_⟩
  intro b t' amount'
  by_cases hc : (b.transaction_history t').isSome
  · simp [ClientAccount.withdraw, hc]
  · by_cases hf : amount' > b.available
    · simp [ClientAccount.withdraw, hc, hf]
    · simp [ClientAccount.withdraw, hc, hf]

/-- Witness for C3 amended: reusing the id of a ledgered deposit errors and
leaves the account as it was. -/
theorem c3_duplicate_tx_witness :
    (((ClientAccount.new 1).deposit 1 10).2.deposit 1 7
      = (some TxError.transactionAlreadyExists,
         ((ClientAccount.new 1).deposit 1 10).2)) ∧
    (((ClientAccount.new 1).deposit 1 10).2.withdraw 1 7
      = (some TxError.transactionAlreadyExists,
         ((ClientAccount.new 1).deposit 1 10).2)) :=
  ⟨(c3_duplicate_tx ((ClientAccount.new 1).deposit 1 10).2 1 7
      (by norm_num [ClientAccount.new, ClientAccount.deposit, insertHist,
        TransactionHist.new])).1,
   (c3_duplicate_tx ((ClientAccount.new 1).deposit 1 10).2 1 7
      (by norm_num [ClientAccount.new, ClientAccount.deposit, insertHist,
        TransactionHist.new])).2.1⟩

/-- C4: dispute errors exactly when the transaction is not in the ledger,
when its entry is not Idle, or when the entry amount strictly exceeds
available, in each case leaving the account unchanged; otherwise it succeeds
moving the amount from available to held and marking the entry InProgress. -/
theorem c4_dispute_spec (a : ClientAccount) (tx : TransactionId) :
    (a.transaction_history tx = none →
      a.dispute tx = (some TxError.noDepositTransaction, a)) ∧
    (∀ e, a.transaction_history tx = some e →
      e.state ≠ DisputeProgress.Idle →
      a.dispute tx = (some TxError.disputeInProgressOrDone, a)) ∧
    (∀ e, a.transaction_history tx = some e →
      e.state = DisputeProgress.Idle → a.available < e.amount →
      a.dispute tx = (some TxError.notEnoughFundsToDispute, a)) ∧
    (∀ e, a.transaction_history tx = some e →
      e.state = DisputeProgress.Idle → e.amount ≤ a.available →
      (a.dispute tx).1 = none ∧
      (a.dispute tx).2.available = a.available - e.amount ∧
      (a.dispute tx).2.held = a.held + e.amount ∧
      (a.dispute tx).2.transaction_history tx =
        some { state := DisputeProgress.InProgress, amount := e.amount }) := by
  refine ⟨?_, ?_, ?_, ?_⟩
  · intro h
    simp [ClientAccount.dispute, h]
  · intro e hh hs
    simp [ClientAccount.dispute, hh, hs]
  · intro e hh hs hf
    simp [ClientAccount.dispute, hh, hs, hf]
  · intro e hh hs hf
    have hng : ¬ e.amount > a.available := not_lt.mpr hf
    refine ⟨?_, ?_, ?_, ?_⟩ <;>
      simp [ClientAccount.dispute, hh, hs, hng, insertHist]

/-- Witness for C4, scenario S4: disputing the 10 deposit with only 5
available is rejected and the account is unchanged with available 5 and
held 0; on the fresh account the same dispute succeeds. -/
theorem c4_dispute_spec_witness :
    (s4Sample.dispute 1 = (some TxError.notEnoughFundsToDispute, s4Sample) ∧
      s4Sample.available = 5 ∧ s4Sample.held = 0) ∧
    ((((ClientAccount.new 1).deposit 1 10).2.dispute 1).1 = none ∧
      (((ClientAccount.new 1).deposit 1 10).2.dispute 1).2.available = 0 ∧
      (((ClientAccount.new 1).deposit 1 10).2.dispute 1).2.held = 0 + 10) := by
  constructor
  · refine ⟨?_,
      by norm_num [s4Sample, ClientAccount.new, ClientAccount.deposit,
        ClientAccount.withdraw, insertHist, TransactionHist.new],
      by norm_num [s4Sample, ClientAccount.new, ClientAccount.deposit,
        ClientAccount.withdraw, insertHist, TransactionHist.new]⟩
    exact (c4_dispute_spec s4Sample 1).2.2.1
      { state := DisputeProgress.Idle, amount := 10 }
      (by norm_num [s4Sample, ClientAccount.new, ClientAccount.deposit,
        ClientAccount.withdraw, insertHist, TransactionHist.new])
      rfl
      (by norm_num [s4Sample, ClientAccount.new, ClientAccount.deposit,
        ClientAccount.withdraw, insertHist, TransactionHist.new])
  · obtain ⟨h1, h2, h3, _⟩ :=
      (c4_dispute_spec ((ClientAccount.new 1).deposit 1 10).2 1).2.2.2
        { state := DisputeProgress.Idle, amount := 10 }
        (by norm_num [ClientAccount.new, ClientAccount.deposit, insertHist,
          TransactionHist.new])
        rfl
        (by norm_num [ClientAccount.new, ClientAccount.deposit, insertHist,
          TransactionHist.new])
    refine ⟨h1, ?_, ?_⟩
    · rw [h2]
      norm_num [ClientAccount.new, ClientAccount.deposit, insertHist,
        TransactionHist.new]
    · rw [h3]
      norm_num [ClientAccount.new, ClientAccount.deposit, insertHist,
        TransactionHist.new]

/-- C5: a chargeback on an InProgress entry covered by held succeeds, lowers
held by the entry amount, locks the account, marks the entry Done, leaves
available untouched (so total drops by exactly the entry amount) and leaves
every other ledger entry unchanged. -/
theorem c5_chargeback_effect (a : ClientAccount) (tx : TransactionId)
    (e : TransactionHist) (hh : a.transaction_history tx = some e)
    (hs : e.state = DisputeProgress.InProgress) (hf : e.amount ≤ a.held) :
    (a.chargeback tx).1 = none ∧
    (a.chargeback tx).2.held = a.held - e.amount ∧
    (a.chargeback tx).2.locked = true ∧
    (a.chargeback tx).2.available = a.available ∧
    (a.chargeback tx).2.total = a.total - e.amount ∧
    (a.chargeback tx).2.transaction_history tx =
      some { state := DisputeProgress.Done, amount := e.amount } ∧
    ∀ t, t ≠ tx → (a.chargeback tx).2.transaction_history t =
      a.transaction_history t := by
  have hng : ¬ e.amount > a.held := not_lt.mpr hf
  refine ⟨?_, ?_, ?_, ?_, ?_, ?_, ?_⟩
  · simp [ClientAccount.chargeback, hh, hs, hng]
  · simp [ClientAccount.chargeback, hh, hs, hng]
  · simp [ClientAccount.chargeback, hh, hs, hng]
  · simp [ClientAccount.chargeback, hh, hs, hng]
  · simp [ClientAccount.chargeback, hh, hs, hng, ClientAccount.total]
    ring
  · simp [ClientAccount.chargeback, hh, hs, hng, insertHist]
  · intro t ht
    simp [ClientAccount.chargeback, hh, hs, hng, insertHist, ht]

/-- Witness for C5: charging back the disputed deposit of 10 empties held,
locks the account, keeps available at 0 and leaves the (absent) entry 2
unchanged. -/
theorem c5_chargeback_effect_witness :
    (disputedSample.chargeback 1).1 = none ∧
    (disputedSample.chargeback 1).2.held = disputedSample.held - 10 ∧
    (disputedSample.chargeback 1).2.locked = true ∧
    (disputedSample.chargeback 1).2.available = disputedSample.available ∧
    (disputedSample.chargeback 1).2.total = disputedSample.total - 10 ∧
    (disputedSample.chargeback 1).2.transaction_history 1 =
      some { state := DisputeProgress.Done, amount := 10 } ∧
    (disputedSample.chargeback 1).2.transaction_history 2 =
      disputedSample.transaction_history 2 := by
  obtain ⟨h1, h2, h3, h4, h5, h6, h7⟩ :=
    c5_chargeback_effect disputedSample 1
      { state := DisputeProgress.InProgress, amount := 10 }
      (by norm_num [disputedSample, ClientAccount.new, ClientAccount.deposit,
        ClientAccount.dispute, insertHist, TransactionHist.new])
      rfl
      (by norm_num [disputedSample, ClientAccount.new, ClientAccount.deposit,
        ClientAccount.dispute, insertHist, TransactionHist.new])
  exact ⟨h1, h2, h3, h4, h5, h6, h7 2 (by decide)⟩

/-- C6: once an account stored by the manager is locked, no later record of
any type changes it: execute_transactions checks is_locked before
dispatching and discards the record, so the stored account stays exactly
the same through any further stream. -/
theorem c6_locked_account_frozen (records : List TransactionRecord)
    (accounts : ClientId → Option ClientAccount) (c : ClientId)
    (a : ClientAccount) (hc : accounts c = some a) (hl : a.locked = true) :
    execute_transactions accounts records c = some a := by
  induction records generalizing accounts with
  | nil => exact hc
  | cons r rest ih =>
    show (List.foldl processRecord (processRecord accounts r) rest) c = some a
    refine ih (processRecord accounts r) ?_
    by_cases hrc : c = r.client
    · have hga : getOrCreateAccount accounts r.client = a := by
        unfold getOrCreateAccount
        rw [← hrc, hc]
      simp [processRecord, hga, hl, hrc]
    · simp only [processRecord]
      split
      · simp [if_neg hrc, hc]
      · simp [if_neg hrc, hc]

/-- Witness for C6: a deposit record for the locked client 7 leaves the
stored account untouched. -/
theorem c6_locked_account_frozen_witness :
    execute_transactions (fun c => if c = 7 then some lockedSample else none)
      [{ tr_type := TransactionType.Deposit, client := 7, tx := 1,
         amount := some 5 }] 7 = some lockedSample :=
  c6_locked_account_frozen _ _ 7 lockedSample (by simp) rfl

/-- C7: every state-machine operation is atomic on error: whenever deposit,
withdraw, dispute, resolve or chargeback returns an error, the account
(available, held, locked and the whole ledger) is exactly as before. -/
theorem c7_ops_atomic_on_error (a : ClientAccount) (tx : TransactionId)
    (amount : Amount) :
    ((a.deposit tx amount).1.isSome → (a.deposit tx amount).2 = a) ∧
    ((a.withdraw tx amount).1.isSome → (a.withdraw tx amount).2 = a) ∧
    ((a.dispute tx).1.isSome → (a.dispute tx).2 = a) ∧
    ((a.resolve tx).1.isSome → (a.resolve tx).2 = a) ∧
    ((a.chargeback tx).1.isSome → (a.chargeback tx).2 = a) := by
  refine ⟨?_, ?_, ?_, ?_, ?_⟩ <;> intro h
  · by_cases hc : (a.transaction_history tx).isSome
    · simp [ClientAccount.deposit, hc]
    · simp [ClientAccount.deposit, hc] at h
  · by_cases hc : (a.transaction_history tx).isSome
    · simp [ClientAccount.withdraw, hc]
    · by_cases hf : amount > a.available
      · simp [ClientAccount.withdraw, hc, hf]
      · simp [ClientAccount.withdraw, hc, hf] at h
  · cases hh : a.transaction_history tx with
    | none => simp [ClientAccount.dispute, hh]
    | some t =>
      by_cases hs : t.state = DisputeProgress.Idle
      · by_cases hf : t.amount > a.available
        · simp [ClientAccount.dispute, hh, hs, hf]
        · simp [ClientAccount.dispute, hh, hs, hf] at h
      · simp [ClientAccount.dispute, hh, hs]
  · cases hh : a.transaction_history tx with
    | none => simp [ClientAccount.resolve, hh]
    | some t =>
      by_cases hs : t.state = DisputeProgress.InProgress
      · by_cases hf : t.amount > a.held
        · simp [ClientAccount.resolve, hh, hs, hf]
        · simp [ClientAccount.resolve, hh, hs, hf] at h
      · simp [ClientAccount.resolve, hh, hs]
  · cases hh : a.transaction_history tx with
    | none => simp [ClientAccount.chargeback, hh]
    | some t =>
      by_cases hs : t.state = DisputeProgress.InProgress
      · by_cases hf : t.amount > a.held
        · simp [ClientAccount.chargeback, hh, hs, hf]
        · simp [ClientAccount.chargeback, hh, hs, hf] at h
      · simp [ClientAccount.chargeback, hh, hs]

/-- Witness for C7 at a concrete account on which all five operations
error. -/
theorem c7_ops_atomic_on_error_witness :
    (doneSample.deposit 1 5).2 = doneSample ∧
    (doneSample.withdraw 1 5).2 = doneSample ∧
    (doneSample.dispute 1).2 = doneSample ∧
    (doneSample.resolve 1).2 = doneSample ∧
    (doneSample.chargeback 1).2 = doneSample :=
  ⟨(c7_ops_atomic_on_error doneSample 1 5).1 (by decide),
   (c7_ops_atomic_on_error doneSample 1 5).2.1 (by decide),
   (c7_ops_atomic_on_error doneSample 1 5).2.2.1 (by decide),
   (c7_ops_atomic_on_error doneSample 1 5).2.2.2.1 (by decide),
   (c7_ops_atomic_on_error doneSample 1 5).2.2.2.2 (by decide)⟩

/-- C8: when the parsed blocks with ids 1..n, carrying record vectors
rs 1..rs n, are each delivered exactly once in an arbitrary order, the
reorder stage emits exactly the concatenation of the record vectors in
ascending block-id order, each record exactly once. -/
theorem c8_reorder (n : Nat) (rs : Nat → List TransactionRecord) (blocks : List ParsedBlock)
    (hperm : blocks.Perm ((List.range n).map (fun i => (i + 1, rs (i + 1))))) :
    start_reorder blocks = expectedOut rs n := by
  have hinit : ReorderInv rs [] (1, [], []) := by
    refine ⟨le_rfl, ?_, by simp, by simp [expectedOut], by simp, ?_⟩
    · intro k hk1 hk2
      omega
    · intro k
      simp [lookupQ]
  have hmemblocks : ∀ p ∈ blocks, 1 ≤ p.1 ∧ p.2 = rs p.1 ∧ p.1 ∉ ([] : List Nat) := by
    intro p hp
    have hp' := hperm.mem_iff.mp hp
    obtain ⟨j, hj, hpj⟩ := List.mem_map.mp hp'
    subst hpj
    simp
  have hndids : (blocks.map Prod.fst).Nodup := by
    have hpm : (blocks.map Prod.fst).Perm
        (((List.range n).map (fun i => (i + 1, rs (i + 1)))).map Prod.fst) :=
      hperm.map Prod.fst
    rw [List.map_map] at hpm
    have : (List.map (Prod.fst ∘ fun i => (i + 1, rs (i + 1))) (List.range n)).Nodup := by
      have : (Prod.fst ∘ fun i => (i + 1, rs (i + 1))) = fun i => i + 1 := rfl
      rw [this]
      exact List.Nodup.map (fun a b hab => by omega) (List.nodup_range n)
    exact hpm.nodup_iff.mpr this
  have hfin := foldl_reorder_inv rs blocks [] (1, [], []) hinit hndids hmemblocks
  obtain ⟨f1, f2, f3, f4, f5, f6⟩ := hfin
  set st := blocks.foldl reorderStep (1, ([], [])) with hst
  have hmemD : ∀ k, k ∈ (blocks.map Prod.fst).reverse ++ ([] : List Nat)
      ↔ (1 ≤ k ∧ k ≤ n) := by
    intro k
    rw [List.append_nil, List.mem_reverse]
    constructor
    · intro hk
      obtain ⟨p, hp, hpk⟩ := List.mem_map.mp hk
      have hp' := hperm.mem_iff.mp hp
      obtain ⟨j, hj, hpj⟩ := List.mem_map.mp hp'
      rw [← hpj] at hpk
      simp only at hpk
      simp only [List.mem_range] at hj
      omega
    · intro hk
      have : (k, rs k) ∈ blocks := by
        rw [hperm.mem_iff]
        apply List.mem_map.mpr
        exact ⟨k - 1, by simp only [List.mem_range]; omega,
          by rw [show k - 1 + 1 = k by omega]⟩
      have := List.mem_map_of_mem Prod.fst this
      simpa using this
  have hw : st.1 = n + 1 := by
    have hub : st.1 ≤ n + 1 := by
      by_contra hc
      push_neg at hc
      have : n + 1 ∈ (blocks.map Prod.fst).reverse ++ ([] : List Nat) :=
        f2 (n + 1) (by omega) (by omega)
      rw [hmemD] at this
      omega
    have hlb : ¬ st.1 ≤ n := by
      intro hc
      exact f3 ((hmemD st.1).mpr ⟨f1, hc⟩)
    omega
  have : start_reorder blocks = st.2.2 := rfl
  rw [this, f4, hw]
  simp

/-- Witness for C8: blocks 2 and 1 delivered out of order come out as the
records of block 1 followed by those of block 2. -/
theorem c8_reorder_witness :
    start_reorder [(2, blockRecord 2), (1, blockRecord 1)]
      = expectedOut blockRecord 2 :=
  c8_reorder 2 blockRecord [(2, blockRecord 2), (1, blockRecord 1)]
    (by
      rw [show (List.range 2).map (fun i => (i + 1, blockRecord (i + 1)))
          = [(1, blockRecord 1), (2, blockRecord 2)] from rfl]
      exact List.Perm.swap (1, blockRecord 1) (2, blockRecord 2) [])

/-- C9: the exit code of main is 0 even when opening the input file fails:
main.rs logs the error returned by the run and then calls exit(0), so the
claimed non-zero exit code never happens. -/
theorem c9_exit_code_zero_on_open_failure :
    mainExitCode 2 (Except.error "No such file or directory") = 0 := rfl

/-- C10: the state-machine operations never consult the locked flag: on a
locked account a deposit with a fresh transaction id succeeds and increases
available, and the outcome of every operation is the same as on the same
account with the flag cleared; the lock is enforced only by the manager
loop. -/
theorem c10_lock_not_consulted (a : ClientAccount) (tx : TransactionId)
    (amount : Amount) (hl : a.locked = true) :
    (a.transaction_history tx = none →
      (a.deposit tx amount).1 = none ∧
      (a.deposit tx amount).2.available = a.available + amount) ∧
    (a.deposit tx amount).1 = ((setLocked a false).deposit tx amount).1 ∧
    (a.withdraw tx amount).1 = ((setLocked a false).withdraw tx amount).1 ∧
    (a.dispute tx).1 = ((setLocked a false).dispute tx).1 ∧
    (a.resolve tx).1 = ((setLocked a false).resolve tx).1 ∧
    (a.chargeback tx).1 = ((setLocked a false).chargeback tx).1 := by
  refine ⟨?_, ?_, ?_, ?_, ?_, ?_⟩
  · intro h
    simp [ClientAccount.deposit, h]
  · by_cases hc : (a.transaction_history tx).isSome <;>
      simp [ClientAccount.deposit, setLocked, hc]
  · by_cases hc : (a.transaction_history tx).isSome
    · simp [ClientAccount.withdraw, setLocked, hc]
    · by_cases hf : amount > a.available <;>
        simp [ClientAccount.withdraw, setLocked, hc, hf]
  · cases hh : a.transaction_history tx with
    | none => simp [ClientAccount.dispute, setLocked, hh]
    | some t =>
      by_cases hs : t.state = DisputeProgress.Idle
      · by_cases hf : t.amount > a.available <;>
          simp [ClientAccount.dispute, setLocked, hh, hs, hf]
      · simp [ClientAccount.dispute, setLocked, hh, hs]
  · cases hh : a.transaction_history tx with
    | none => simp [ClientAccount.resolve, setLocked, hh]
    | some t =>
      by_cases hs : t.state = DisputeProgress.InProgress
      · by_cases hf : t.amount > a.held <;>
          simp [ClientAccount.resolve, setLocked, hh, hs, hf]
      · simp [ClientAccount.resolve, setLocked, hh, hs]
  · cases hh : a.transaction_history tx with
    | none => simp [ClientAccount.chargeback, setLocked, hh]
    | some t =>
      by_cases hs : t.state = DisputeProgress.InProgress
      · by_cases hf : t.amount > a.held <;>
          simp [ClientAccount.chargeback, setLocked, hh, hs, hf]
      · simp [ClientAccount.chargeback, setLocked, hh, hs]

/-- Witness for C10: a deposit on a locked account goes through and raises
available. -/
theorem c10_lock_not_consulted_witness :
    (lockedSample.deposit 1 5).1 = none ∧
    (lockedSample.deposit 1 5).2.available = lockedSample.available + 5 :=
  (c10_lock_not_consulted lockedSample 1 5 rfl).1 rfl

end PayToy
